import Mathlib

/-!
Verification of the `dongle` directory picker (`src/dongle/main.py`) against its
natural-language specification.

Strings are modelled as `List Char` (Python `str.lower()` is modelled by
`Char.toLower`, which performs the ASCII case fold used by every input in the
claims).  Python `int` is modelled by `Int` (Python integers are unbounded, so
no wrap-around modelling is needed).
-/

namespace Dongle

/-! ## Fuzzy matcher (`fuzzy_score`, main.py lines 237-263) -/

/-- The separator characters of `p[ci-1] in "/_ -."` (main.py line 256). -/
def SEP_CHARS : List Char := ['/', '_', ' ', '-', '.']

def isSep (c : Char) : Bool := SEP_CHARS.contains c

/-- `q` occurs in `p` starting at index `i` (Python substring occurrence). -/
def startsAt (q p : List Char) (i : Nat) : Bool := q.isPrefixOf (p.drop i)

/-- Python `p.rfind(q)` for nonempty `q`: the largest index at which `q`
occurs in `p`, `none` when `q` is not a substring of `p`.
`Python `q in p` is `(rfindNat q p).isSome`. -/
def rfindNat (q p : List Char) : Option Nat :=
  ((List.range (p.length + 1)).filter (startsAt q p)).getLast?

/-- The subsequence loop of `fuzzy_score` (main.py lines 251-260): walk the
candidate left to right carrying the unread rest of the query, the flag
"the previous candidate character is a separator" (`ci > 0 and p[ci-1] in
"/_ -."`), the running `score` and the `bonus` accumulator.  Returns the final
score together with the unconsumed query rest. -/
def fuzzyWalk : List Char → List Char → Bool → Int → Int → Int × List Char
  | [], qrem, _, score, _ => (score, qrem)
  | ch :: rest, c :: cs, prevSep, score, bonus =>
    if ch = c then
      let b := bonus + (if prevSep then 10 else 1)
      fuzzyWalk rest cs (isSep ch) (score + b) b
    else
      fuzzyWalk rest (c :: cs) (isSep ch) score 0
  | ch :: rest, [], _, score, _ => fuzzyWalk rest [] (isSep ch) score 0

/-- `fuzzy_score(query, path)` (main.py lines 237-263). -/
def fuzzy_score (query path : List Char) : Int :=
  if query = [] then 1
  else
    let q := query.map Char.toLower
    let p := path.map Char.toLower
    match rfindNat q p with
    | some idx => 1000 - (idx : Int)
    | none =>
      let r := fuzzyWalk p q false 0 0
      if r.2 = [] then r.1 else -1

/-! ### The spec's description of the subsequence walk, as a pure fold

Each candidate character is tagged with "the previous candidate character is a
separator" and the walk is a fold over the tagged list.  Two variants:

* `claimSubseqScore` follows claim C1 as stated: a matched character adds
  `+10` to the bonus accumulator when it follows a separator **or starts a
  fresh matched run** (i.e. the previous candidate character was not matched),
  `+1` otherwise.
* `specSubseqScore` is the amended description: `+10` exactly when the matched
  character follows a separator, `+1` otherwise (including run starts).

Both reset the bonus accumulator to zero at every unmatched candidate
character and return `-1` when the query is not fully consumed. -/

/-- Tag every character of `p` with "previous character is a separator"
(`false` for the first character). -/
def tagPrev (p : List Char) : List (Char × Bool) :=
  p.zip (false :: p.map isSep)

/-- One step of the amended walk; state is (query rest, score, bonus). -/
def specStep (st : List Char × Int × Int) (x : Char × Bool) :
    List Char × Int × Int :=
  match st with
  | (c :: cs, score, bonus) =>
    if x.1 = c then
      let b := bonus + (if x.2 then 10 else 1)
      (cs, score + b, b)
    else (c :: cs, score, 0)
  | ([], score, _) => ([], score, 0)

/-- Amended subsequence score: fold `specStep` over the tagged candidate. -/
def specSubseqScore (q p : List Char) : Int :=
  let r := (tagPrev p).foldl specStep (q, 0, 0)
  if r.1 = [] then r.2.1 else -1

/-- One step of the walk claimed by C1 as stated; state additionally carries
"the previous candidate character was matched" (run-active flag). -/
def claimStep (st : List Char × Int × Int × Bool) (x : Char × Bool) :
    List Char × Int × Int × Bool :=
  match st with
  | (c :: cs, score, bonus, run) =>
    if x.1 = c then
      let b := bonus + (if x.2 ∨ ¬ run then 10 else 1)
      (cs, score + b, b, true)
    else (c :: cs, score, 0, false)
  | ([], score, _, _) => ([], score, 0, false)

/-- The subsequence score described by claim C1 as stated (`+10` also at the
start of every fresh matched run). -/
def claimSubseqScore (q p : List Char) : Int :=
  let r := (tagPrev p).foldl claimStep (q, 0, 0, false)
  if r.1 = [] then r.2.1 else -1

/-! ## Candidate entries and ranking (`search`, main.py lines 266-294)

A candidate is either a single-root relative path string, or a workspace
`(display_path, absolute_path)` pair (the Python code distinguishes the two by
an `isinstance` check on tuples). -/

inductive Cand where
  | single (rel : List Char)
  | ws (display abs : List Char)
deriving DecidableEq

/-- `search_str` of main.py lines 281-285: the text the matcher runs on. -/
def searchText : Cand → List Char
  | .single r => r
  | .ws d _ => d

/-! ### `os.path.relpath` for POSIX paths

`search` computes `os.path.relpath(cwd, root)` (main.py line 272).  The
callers pass absolute paths (`os.getcwd()` / `os.path.abspath` results), for
which CPython's `posixpath.relpath` reduces to `normpath` on both arguments
followed by component comparison; resolution of *relative* arguments against
the process working directory is outside the model. -/

/-- Python `path.split("/")`, keeping empty components. -/
def splitSlash : List Char → List (List Char)
  | [] => [[]]
  | c :: rest =>
    if c = '/' then [] :: splitSlash rest
    else
      match splitSlash rest with
      | [] => [[c]]
      | h :: t => (c :: h) :: t

/-- The number of initial slashes `posixpath.normpath` preserves
(2 for exactly two leading slashes, else 1 for an absolute path, else 0). -/
def initSlashCount (p : List Char) : Nat :=
  if p.take 2 = ['/', '/'] ∧ p.take 3 ≠ ['/', '/', '/'] then 2
  else if p.take 1 = ['/'] then 1
  else 0

/-- The component-normalisation loop of `posixpath.normpath`: drop empty and
`.` components; `..` pops the previous component except at the top of an
absolute path or after an unresolved `..`. -/
def normComps (ini : Nat) (comps : List (List Char)) : List (List Char) :=
  comps.foldl (fun acc comp =>
    if comp = [] ∨ comp = ['.'] then acc
    else if comp ≠ ['.', '.'] ∨ (ini = 0 ∧ acc = []) ∨
        acc.getLast? = some ['.', '.'] then acc ++ [comp]
    else if acc ≠ [] then acc.dropLast
    else acc) []

/-- `posixpath.normpath`. -/
def normpath (p : List Char) : List Char :=
  if p = [] then ['.']
  else
    let ini := initSlashCount p
    let out := List.replicate ini '/' ++
      List.intercalate ['/'] (normComps ini (splitSlash p))
    if out = [] then ['.'] else out

/-- Length of the common prefix of two component lists
(`len(commonprefix([start_list, path_list]))`). -/
def commonLen : List (List Char) → List (List Char) → Nat
  | a :: as, b :: bs => if a = b then commonLen as bs + 1 else 0
  | _, _ => 0

/-- `posixpath.relpath(path, start)` for absolute arguments. -/
def relpath (path start : List Char) : List Char :=
  let sList := (splitSlash (normpath start)).filter (· ≠ [])
  let pList := (splitSlash (normpath path)).filter (· ≠ [])
  let i := commonLen sList pList
  let rel := List.replicate (sList.length - i) ['.', '.'] ++ pList.drop i
  if rel = [] then ['.'] else List.intercalate ['/'] rel

/-! ### `search` (main.py lines 266-294) -/

/-- `cwd_prefix` of main.py lines 270-274. -/
def cwdPrefOf (root cwd : List Char) : List Char :=
  if cwd ≠ [] ∧ root ≠ [] ∧ root.isPrefixOf cwd then
    let rel := relpath cwd root
    if rel ≠ [] ∧ rel ≠ ['.'] then rel ++ ['/'] else []
  else []

/-- `abs_cwd` of main.py line 276. -/
def absCwdOf (cwd : List Char) : List Char :=
  if cwd ≠ [] then cwd ++ ['/'] else []

/-- `is_inside_cwd` of main.py lines 283/286: workspace entries test the
absolute path against `abs_cwd`, single-root entries test the relative path
against `cwd_prefix`; an empty prefix never matches (Python falsiness). -/
def insideCwd (cp ac : List Char) : Cand → Bool
  | .ws _ a => if ac ≠ [] then ac.isPrefixOf a else false
  | .single r => if cp ≠ [] then cp.isPrefixOf r else false

/-- The scoring loop of `search` (main.py lines 278-292), in scan order:
score each candidate, keep those with strictly positive score, and add the
`+100000` cwd boost after the base score. -/
def scoredCandidates (query : List Char) (paths : List Cand)
    (cp ac : List Char) : List (Int × Cand) :=
  paths.filterMap (fun r =>
    let s := fuzzy_score query (searchText r)
    if 0 < s then some (if insideCwd cp ac r then s + 100000 else s, r)
    else none)

/-- The comparison of `results.sort(key=lambda x: -x[0])`: `a` may stay
before `b` iff `-a.1 ≤ -b.1`, i.e. `b.1 ≤ a.1`. -/
def scoreLE (a b : Int × Cand) : Bool := decide (b.1 ≤ a.1)

/-- `search(query, paths, limit, root, cwd)` (main.py lines 266-294).
Python's `list.sort(key=lambda x: -x[0])` is a stable sort descending by
score; a stable sort's output is uniquely determined by its key order, so the
stable `List.mergeSort` with `scoreLE` is extensionally exact.  `limit` is
modelled as `Nat` (`results[:limit]` for the nonnegative limits the program
uses is `take limit`). -/
def search (query : List Char) (paths : List Cand) (limit : Nat)
    (root cwd : List Char) : List (Int × Cand) :=
  ((scoredCandidates query paths (cwdPrefOf root cwd) (absCwdOf cwd)).mergeSort
    scoreLE).take limit

/-! ## Directory scanner (`scan_paths`, main.py lines 124-191)

The filesystem is modelled as a finite tree of directories (`os.scandir`
results are traversed in tree order; plain files are never emitted by the
scanner — `if not entry.is_dir(): continue` — so only directories appear in
the model).  `readable = false` models a `PermissionError` raised by
`os.scandir`, which the code swallows.  Directory names produced by
`os.scandir` contain no `/` and are never `.` or `..`; under that guarantee
`os.path.relpath(entry.path, current_root)` is the `/`-join of the name
components walked so far, which is how relative paths are built here. -/

/-- `SKIP_DIRS` (main.py lines 67-72). -/
def SKIP_DIRS : List (List Char) :=
  [".git".toList, ".svn".toList, ".hg".toList, "node_modules".toList,
    "__pycache__".toList, ".cache".toList, ".npm".toList, ".yarn".toList,
    "dist".toList, "build".toList, ".next".toList, ".nuxt".toList,
    "venv".toList, ".venv".toList, "env".toList, ".env".toList,
    ".tox".toList, "target".toList, "vendor".toList, ".idea".toList,
    ".vscode".toList, "coverage".toList, ".mypy_cache".toList,
    ".pytest_cache".toList]

/-- `entry.name in SKIP_DIRS or entry.name.startswith(".")`
(main.py line 163). -/
def skipName (n : List Char) : Bool :=
  SKIP_DIRS.contains n || ['.'].isPrefixOf n

mutual
inductive Dir where
  | mk (name : List Char) (readable : Bool) (children : DirList)
inductive DirList where
  | nil
  | cons (d : Dir) (rest : DirList)
end

def Dir.name : Dir → List Char
  | .mk n _ _ => n

def Dir.readable : Dir → Bool
  | .mk _ r _ => r

def Dir.children : Dir → DirList
  | .mk _ _ cs => cs

def DirList.length : DirList → Nat
  | .nil => 0
  | .cons _ rest => rest.length + 1

/-- `os.path.join(a, b)` for POSIX paths. -/
def pathJoin (a b : List Char) : List Char :=
  if ['/'].isPrefixOf b then b
  else if a = [] ∨ a.getLast? = some '/' then a ++ b
  else a ++ '/' :: b

/-- `os.path.basename`: everything after the last `/`. -/
def basename (p : List Char) : List Char :=
  List.getLastD (splitSlash p) []

/-- `spec and spec.match_file(...)` (main.py line 169): `none` models the
absent pathspec. -/
def specMatch : Option (List Char → Bool) → List Char → Bool
  | none, _ => false
  | some f, s => f s

/-- The candidate emitted for the directory reached through name components
`comps` below the root `rp` (main.py lines 166-178): in workspace mode the
`(display_path, absolute_path)` pair with the root's basename prefixed, in
single-root mode the relative path. -/
def emitCand (isWs : Bool) (rp : List Char) (comps : List (List Char)) : Cand :=
  if isWs then
    Cand.ws (pathJoin (basename rp) (List.intercalate ['/'] comps))
      (comps.foldl pathJoin rp)
  else Cand.single (List.intercalate ['/'] comps)

mutual
/-- The recursive `walk(current, depth, current_root)` of `scan_paths`
(main.py lines 150-180): `pfx` is the component path of `current` below the
root, `acc` the shared `paths` list.  The guard mirrors
`depth > max_depth or len(paths) >= max_dirs` and the `PermissionError`
swallow. -/
def walkD (mD mN : Nat) (spec : Option (List Char → Bool)) (isWs : Bool)
    (rp : List Char) (d : Dir) (depth : Nat) (pfx : List (List Char))
    (acc : List Cand) : List Cand :=
  match d with
  | .mk _ rd cs =>
    if mD < depth ∨ mN ≤ acc.length then acc
    else if rd = false then acc
    else walkL mD mN spec isWs rp cs depth pfx acc

/-- The `for entry in entries` loop of `walk`: skip deny-listed and hidden
names, skip ignore-spec matches (tested on `rel + "/"`), otherwise append the
candidate and recurse with `depth + 1`. -/
def walkL (mD mN : Nat) (spec : Option (List Char → Bool)) (isWs : Bool)
    (rp : List Char) (cs : DirList) (depth : Nat) (pfx : List (List Char))
    (acc : List Cand) : List Cand :=
  match cs with
  | .nil => acc
  | .cons c rest =>
    walkL mD mN spec isWs rp rest depth pfx
      (if skipName c.name then acc
       else if specMatch spec
           (List.intercalate ['/'] (pfx ++ [c.name]) ++ ['/']) then acc
       else walkD mD mN spec isWs rp c (depth + 1) (pfx ++ [c.name])
         (acc ++ [emitCand isWs rp (pfx ++ [c.name])]))
end

mutual
/-- The walk as the spec describes workspace filtering: deny-list and
hidden-name rules only, no ignore-spec consulted (second definition for the
C10 refinement, following the spec's words). -/
def walkNoSpecD (mD mN : Nat) (isWs : Bool) (rp : List Char) (d : Dir)
    (depth : Nat) (pfx : List (List Char)) (acc : List Cand) : List Cand :=
  match d with
  | .mk _ rd cs =>
    if mD < depth ∨ mN ≤ acc.length then acc
    else if rd = false then acc
    else walkNoSpecL mD mN isWs rp cs depth pfx acc

def walkNoSpecL (mD mN : Nat) (isWs : Bool) (rp : List Char) (cs : DirList)
    (depth : Nat) (pfx : List (List Char)) (acc : List Cand) : List Cand :=
  match cs with
  | .nil => acc
  | .cons c rest =>
    walkNoSpecL mD mN isWs rp rest depth pfx
      (if skipName c.name then acc
       else walkNoSpecD mD mN isWs rp c (depth + 1) (pfx ++ [c.name])
         (acc ++ [emitCand isWs rp (pfx ++ [c.name])]))
end

mutual
/-- The largest sum of directory fan-outs along one root-to-leaf path:
an upper bound for how far the `max_dirs` cap can be overshot. -/
def chainFanout : Dir → Nat
  | .mk _ _ cs => cs.length + chainFanoutL cs

def chainFanoutL : DirList → Nat
  | .nil => 0
  | .cons c rest => max (chainFanout c) (chainFanoutL rest)
end

/-- One configured root: its absolute path and its directory tree (`none`
when `os.path.exists(r)` is false, main.py line 186). -/
structure RootFS where
  path : List Char
  tree : Option Dir

/-- `max` of `chainFanout` over the existing roots. -/
def rootsFanout : List RootFS → Nat
  | [] => 0
  | r :: rest =>
    max (match r.tree with | none => 0 | some t => chainFanout t)
      (rootsFanout rest)

/-- `scan_paths(root, max_depth, max_dirs, is_workspace)` (main.py lines
124-191).  `rootTree` is the filesystem at `rootPath`; `wsRoots` is the
parsed `DONGLE_WORKSPACES` environment list; `home` is
`os.path.expanduser("~")`; `ignoreSpec` is what `load_ignore_spec(root)`
returns.  Paths are taken as already absolute (`os.path.abspath` is identity
on the callers' inputs). -/
def scan_paths (rootPath : List Char) (rootTree : Option Dir)
    (maxDepth maxDirs : Nat) (isWs : Bool) (wsRoots : List RootFS)
    (home : List Char) (ignoreSpec : Option (List Char → Bool)) : List Cand :=
  let mD := if ¬ isWs ∧ maxDepth = 6 ∧ (rootPath = home ∨ rootPath = ['/'])
    then 2 else maxDepth
  let roots : List RootFS :=
    if isWs && !wsRoots.isEmpty then wsRoots else [⟨rootPath, rootTree⟩]
  let spec : Option (List Char → Bool) := if isWs then none else ignoreSpec
  let init : List Cand := if isWs then [] else [Cand.single ['.']]
  -- `scan_depth = 3 if is_workspace else max_depth` (main.py line 188) is
  -- computed by the source but never passed to `walk`, which closes over
  -- `max_depth`; the dead binding is kept to mirror the code.
  let scan_depth := if isWs then 3 else mD
  let _ := scan_depth
  roots.foldl (fun acc r =>
    match r.tree with
    | none => acc
    | some t => walkD mD maxDirs spec isWs r.path t 1 [] acc) init

/-- `scan_paths` with the source's default arguments
(`max_depth = 6`, `max_dirs = 15000`). -/
def scanPathsDefault (rootPath : List Char) (rootTree : Option Dir)
    (isWs : Bool) (wsRoots : List RootFS) (home : List Char)
    (ignoreSpec : Option (List Char → Bool)) : List Cand :=
  scan_paths rootPath rootTree 6 15000 isWs wsRoots home ignoreSpec

/-- `scan_paths` as the spec describes it in workspace mode, with no
ignore-spec anywhere (second definition for the C10 refinement). -/
def scanPathsNoSpec (rootPath : List Char) (rootTree : Option Dir)
    (maxDepth maxDirs : Nat) (isWs : Bool) (wsRoots : List RootFS)
    (home : List Char) : List Cand :=
  let mD := if ¬ isWs ∧ maxDepth = 6 ∧ (rootPath = home ∨ rootPath = ['/'])
    then 2 else maxDepth
  let roots : List RootFS :=
    if isWs && !wsRoots.isEmpty then wsRoots else [⟨rootPath, rootTree⟩]
  let init : List Cand := if isWs then [] else [Cand.single ['.']]
  roots.foldl (fun acc r =>
    match r.tree with
    | none => acc
    | some t => walkNoSpecD mD maxDirs isWs r.path t 1 [] acc) init

/-! ### Concrete directory trees used by individual claims -/

/-- A single chain `r1/a/b/c/d` (depth 4 below the root), for C2. -/
def c2tree : Dir :=
  .mk "r1".toList true
    (.cons (.mk "a".toList true
      (.cons (.mk "b".toList true
        (.cons (.mk "c".toList true
          (.cons (.mk "d".toList true .nil) .nil)) .nil)) .nil)) .nil)

/-- A root with three leaf children `a`, `b`, `c`, for C6. -/
def c6tree : Dir :=
  .mk "r".toList true
    (.cons (.mk "a".toList true .nil)
      (.cons (.mk "b".toList true .nil)
        (.cons (.mk "c".toList true .nil) .nil)))

/-- A root with one plain child and two skip-list children, for C7. -/
def c7tree : Dir :=
  .mk "r".toList true
    (.cons (.mk "ok".toList true .nil)
      (.cons (.mk ".git".toList true .nil)
        (.cons (.mk "node_modules".toList true .nil) .nil)))

/-- A root with two plain children `aa`, `bb`, for C10. -/
def c10tree : Dir :=
  .mk "r".toList true
    (.cons (.mk "aa".toList true .nil)
      (.cons (.mk "bb".toList true .nil) .nil))

/-- A candidate emitted by the walk: reached through nonempty, non-skipped
name components below some root. -/
def cleanEmit (isWs : Bool) (c : Cand) : Prop :=
  ∃ comps rp, comps ≠ [] ∧ (∀ n ∈ comps, skipName n = false) ∧
    c = emitCand isWs rp comps

/-! ## Path cache (`load_cache` / `save_cache`, main.py lines 194-212)

The state of the cache file is: missing (`CACHE_FILE.exists()` false), corrupt
(`json.loads` or a field access raises, swallowed by the bare `except`), or a
valid record `{root, paths, ts}`.  `time.time()` is modelled as an `Int`
instant passed explicitly. -/

def CACHE_TTL : Int := 300

inductive CacheFile where
  | missing
  | corrupt
  | valid (root : List Char) (paths : List Cand) (ts : Int)
deriving DecidableEq

/-- `load_cache(root)` evaluated at instant `now` against cache-file state
`f` (main.py lines 194-205). -/
def load_cache : CacheFile → List Char → Int → Option (List Cand)
  | .missing, _, _ => none
  | .corrupt, _, _ => none
  | .valid r ps ts, key, now =>
    if r ≠ key then none
    else if now - ts > CACHE_TTL then none
    else some ps

/-- `save_cache(root, paths)` at instant `now` (main.py lines 208-212);
`writeOk` is false when `write_text` raises, in which case the failure is
swallowed and the previous file state survives. -/
def save_cache (key : List Char) (ps : List Cand) (now : Int) (writeOk : Bool)
    (old : CacheFile) : CacheFile :=
  if writeOk then .valid key ps now else old

/-! ## Interactive picker state machine (`run_picker`, main.py lines 320-534)

The picker's mutable cells `paths`, `results[0]`, `cursor[0]` and the search
buffer's text form the session state; the key handlers and the thread-safe
scan-completion callback are its events, each handled atomically on the UI
loop. -/

/-- `max_results` (main.py line 326). -/
def MAX_RESULTS : Nat := 8

structure PickerState where
  pathsS : List Cand
  text : List Char
  results : List Cand
  cursor : Nat
deriving DecidableEq

/-- The visible list recomputed by `refresh_results(text)` (main.py lines
370-375): rank with the matcher when the text is nonempty, else the first
`max_results` candidates. -/
def visibleOf (root cwd text : List Char) (ps : List Cand) : List Cand :=
  if text ≠ [] then (search text ps MAX_RESULTS root cwd).map Prod.snd
  else ps.take MAX_RESULTS

/-- `refresh_results` (main.py lines 370-377): recompute `results[0]`, then
clamp the cursor with `min(cursor[0], max(0, len(results[0]) - 1))`. -/
def refreshResults (root cwd : List Char) (s : PickerState) : PickerState :=
  let rs := visibleOf root cwd s.text s.pathsS
  { s with results := rs, cursor := min s.cursor (max 0 (rs.length - 1)) }

inductive PickerEvent where
  | up
  | down
  | tab
  | stab
  | textChanged (t : List Char)
  | scanDone (newPaths : List Cand)

/-- The key handlers of main.py lines 344-368 (`up`/`c-p`, `down`/`c-n`,
`tab`, `s-tab`: move by one inside bounds, then refresh), `on_text_change`
(lines 379-381: cursor reset to 0, then refresh) and the scan-completion UI
update (lines 442-455: candidate list replaced, then refresh with the
*current* text). -/
def stepEvent (root cwd : List Char) :
    PickerEvent → PickerState → PickerState
  | .up, s => refreshResults root cwd
      { s with cursor := if 0 < s.cursor then s.cursor - 1 else s.cursor }
  | .down, s => refreshResults root cwd
      { s with cursor := if s.cursor < s.results.length - 1 then s.cursor + 1
          else s.cursor }
  | .tab, s => refreshResults root cwd
      { s with cursor := if s.cursor < s.results.length - 1 then s.cursor + 1
          else s.cursor }
  | .stab, s => refreshResults root cwd
      { s with cursor := if 0 < s.cursor then s.cursor - 1 else s.cursor }
  | .textChanged t, s => refreshResults root cwd
      { s with text := t, cursor := 0 }
  | .scanDone np, s => refreshResults root cwd { s with pathsS := np }

/-- `accept` (main.py lines 332-336): the entry `results[0][cursor[0]]` when
the visible list is nonempty, else no selection. -/
def acceptEvent (s : PickerState) : Option Cand :=
  if s.results.isEmpty then none else s.results.get? s.cursor

/-- Initial session state (main.py lines 322-328): cached candidates (or
none), empty query, `results = paths[:max_results]`, cursor 0. -/
def initState (cached : Option (List Cand)) : PickerState :=
  { pathsS := cached.getD [], text := [],
    results := (cached.getD []).take MAX_RESULTS, cursor := 0 }

/-- Session invariant: the visible results match the current text and
candidate snapshot, and the cursor is clamped into them (equal to 0 when they
are empty). -/
abbrev PickerInv (root cwd : List Char) (s : PickerState) : Prop :=
  s.results = visibleOf root cwd s.text s.pathsS ∧
    s.cursor ≤ s.results.length - 1

/-! ### Concrete candidates for the C4 counterexample

`q4` is the query `a/a/…/a` (141 `a`s).  `d4` is the same chain broken by a
single `x`, so `q4` is not a substring of `d4` but is a subsequence whose
separator bonuses accumulate to a base score of 109352 > 100000.  `e4near`'s
display text is `q4` itself (a substring match, base score 1000) and its
absolute path lies under the cwd `/c`. -/

def q4 : List Char := 'a' :: (List.replicate 140 ['/', 'a']).flatten

def d4 : List Char :=
  (List.replicate 70 ['/', 'a']).flatten ++
    'x' :: (List.replicate 71 ['/', 'a']).flatten

def e4near : Cand := Cand.ws q4 "/c/b".toList

def e4far : Cand := Cand.ws d4 "/d/x".toList

/-! ### Equivalence of the source loop with the fold, and positivity -/

/-- The imperative loop of `fuzzy_score` agrees with the fold over the tagged
candidate, for every intermediate state. -/
theorem fuzzyWalk_eq_fold : ∀ (p q : List Char) (pr : Bool) (s b : Int),
    fuzzyWalk p q pr s b =
      (((p.zip (pr :: p.map isSep)).foldl specStep (q, s, b)).2.1,
       ((p.zip (pr :: p.map isSep)).foldl specStep (q, s, b)).1)
  | [], q, pr, s, b => by simp [fuzzyWalk]
  | ch :: rest, [], pr, s, b => by
    simpa [fuzzyWalk, specStep] using fuzzyWalk_eq_fold rest [] (isSep ch) s 0
  | ch :: rest, c :: cs, pr, s, b => by
    by_cases h : ch = c
    · simpa [fuzzyWalk, specStep, h] using
        fuzzyWalk_eq_fold rest cs (isSep ch) (s + (b + if pr then 10 else 1))
          (b + if pr then 10 else 1)
    · simpa [fuzzyWalk, specStep, h] using
        fuzzyWalk_eq_fold rest (c :: cs) (isSep ch) s 0

/-- The running score never decreases along the walk, and strictly increases
whenever a nonempty query is fully consumed. -/
theorem fuzzyWalk_pos : ∀ (p q : List Char) (pr : Bool) (s b : Int),
    0 ≤ b → 0 ≤ s →
    s ≤ (fuzzyWalk p q pr s b).1 ∧
      (q ≠ [] → (fuzzyWalk p q pr s b).2 = [] → s < (fuzzyWalk p q pr s b).1)
  | [], q, pr, s, b, _, _ => by
    simp only [fuzzyWalk]
    exact ⟨le_refl s, fun hq h2 => absurd h2 hq⟩
  | ch :: rest, [], pr, s, b, hb, hs => by
    simp only [fuzzyWalk]
    refine ⟨(fuzzyWalk_pos rest [] (isSep ch) s 0 (le_refl 0) hs).1, ?_⟩
    intro hq
    exact absurd rfl hq
  | ch :: rest, c :: cs, pr, s, b, hb, hs => by
    by_cases h : ch = c
    · simp only [fuzzyWalk, if_pos h]
      have hδ : (1 : Int) ≤ if pr then 10 else 1 := by split <;> omega
      have hlt : s < s + (b + if pr then 10 else 1) := by omega
      have ih := fuzzyWalk_pos rest cs (isSep ch)
        (s + (b + if pr then 10 else 1)) (b + if pr then 10 else 1)
        (by omega) (by omega)
      exact ⟨le_of_lt (lt_of_lt_of_le hlt ih.1), fun _ _ => lt_of_lt_of_le hlt ih.1⟩
    · simp only [fuzzyWalk, if_neg h]
      exact fuzzyWalk_pos rest (c :: cs) (isSep ch) s 0 (le_refl 0) hs

/-- If `q` occurs nowhere in `p` (all start positions fail) then `rfindNat`
returns `none`. -/
theorem rfindNat_eq_none (q p : List Char)
    (h : ∀ i, i ≤ p.length → startsAt q p i = false) : rfindNat q p = none := by
  unfold rfindNat
  have : (List.range (p.length + 1)).filter (startsAt q p) = [] := by
    rw [List.filter_eq_nil_iff]
    intro a ha
    have : a ≤ p.length := by
      have := List.mem_range.mp ha
      omega
    simp [h a this]
  rw [this]
  rfl

end Dongle

namespace Dongle

/-! Sanity examples from the spec (kept as `example`s, not claim theorems). -/

example : fuzzy_score "foo".toList "foo".toList = 1000 := by decide
example : fuzzy_score "foo".toList "xfoo".toList = 999 := by decide
example : fuzzy_score "zz".toList "foo".toList = -1 := by decide
example : fuzzy_score "fb".toList "foo/bar".toList = 11 := by decide
example : fuzzy_score [] "foo".toList = 1 := by decide
example : fuzzy_score "ab".toList "axb".toList = 2 := by decide
example : claimSubseqScore "ab".toList "axb".toList = 20 := by decide
example : specSubseqScore "ab".toList "axb".toList = 2 := by decide

/-! ## Claim C1 -/

/-- Claim C1 (amended): for every non-empty query `q` that is not a
case-insensitive contiguous substring of the candidate `p`, `fuzzy_score`
performs the single left-to-right subsequence walk described by
`specSubseqScore`: a matched query character adds `+10` to the running
consecutiveness bonus when it immediately follows one of the separators
`/ _ space - .` and `+1` otherwise (also when it starts a fresh matched run),
any unmatched candidate character resets the bonus accumulator to zero, and
the result is the accumulated score (strictly positive) when the whole query
is consumed and `-1` otherwise. -/
theorem C1_subsequence_walk (q p : List Char) (hq : q ≠ [])
    (hsub : ∀ i, i ≤ (p.map Char.toLower).length →
      startsAt (q.map Char.toLower) (p.map Char.toLower) i = false) :
    fuzzy_score q p = specSubseqScore (q.map Char.toLower) (p.map Char.toLower) ∧
      (fuzzy_score q p = -1 ∨ 0 < fuzzy_score q p) := by
  have hnone := rfindNat_eq_none (q.map Char.toLower) (p.map Char.toLower)
    (by simpa using hsub)
  have hq' : q.map Char.toLower ≠ [] := by
    intro h
    exact hq (List.map_eq_nil_iff.mp h)
  have hwalk := fuzzyWalk_eq_fold (p.map Char.toLower) (q.map Char.toLower)
    false 0 0
  have hscore : fuzzy_score q p =
      specSubseqScore (q.map Char.toLower) (p.map Char.toLower) := by
    simp only [fuzzy_score, specSubseqScore, tagPrev, if_neg hq, hnone, hwalk]
  refine ⟨hscore, ?_⟩
  have hpos := fuzzyWalk_pos (p.map Char.toLower) (q.map Char.toLower)
    false 0 0 (le_refl 0) (le_refl 0)
  simp only [fuzzy_score, if_neg hq, hnone]
  by_cases hrem :
      (fuzzyWalk (p.map Char.toLower) (q.map Char.toLower) false 0 0).2 = []
  · right
    rw [if_pos hrem]
    exact hpos.2 hq' hrem
  · left
    rw [if_neg hrem]

/-- Witness for C1 at the spec's own example `score("fb", "foo/bar")`. -/
theorem C1_subsequence_walk_witness :
    fuzzy_score "fb".toList "foo/bar".toList =
      specSubseqScore ("fb".toList.map Char.toLower)
        ("foo/bar".toList.map Char.toLower) ∧
      (fuzzy_score "fb".toList "foo/bar".toList = -1 ∨
        0 < fuzzy_score "fb".toList "foo/bar".toList) :=
  C1_subsequence_walk "fb".toList "foo/bar".toList (by decide) (by decide)

/-! ## Claim C8 -/

/-- In a strictly increasing list, a member that bounds every member is the
last element. -/
theorem getLast?_eq_max : ∀ (L : List Nat) (i : Nat),
    L.Pairwise (· < ·) → i ∈ L → (∀ j ∈ L, j ≤ i) → L.getLast? = some i
  | [], i, _, hi, _ => absurd hi (List.not_mem_nil i)
  | [a], i, _, hi, hmax => by
    have : i = a := by simpa using hi
    simp [this]
  | a :: b :: t, i, hs, hi, hmax => by
    have hab : a < b := (List.pairwise_cons.mp hs).1 b (List.mem_cons_self b t)
    have hi' : i ∈ b :: t := by
      rcases List.mem_cons.mp hi with h | h
      · exfalso
        have hbi : b ≤ i := hmax b (by simp)
        omega
      · exact h
    have : (b :: t).getLast? = some i :=
      getLast?_eq_max (b :: t) i (List.pairwise_cons.mp hs).2 hi'
        (fun j hj => hmax j (List.mem_cons_of_mem a hj))
    simpa [List.getLast?] using this

/-- `rfindNat` returns exactly the largest occurrence index. -/
theorem rfindNat_eq_some (q p : List Char) (i : Nat) (hq : q ≠ [])
    (hocc : startsAt q p i = true)
    (hmax : ∀ j, j ≤ p.length → startsAt q p j = true → j ≤ i) :
    rfindNat q p = some i := by
  have hip : i ≤ p.length := by
    by_contra hgt
    have hdrop : p.drop i = [] := List.drop_eq_nil_of_le (by omega)
    unfold startsAt at hocc
    rw [hdrop] at hocc
    cases q with
    | nil => exact hq rfl
    | cons c cs => simp [List.isPrefixOf] at hocc
  have hmem : i ∈ (List.range (p.length + 1)).filter (startsAt q p) :=
    List.mem_filter.mpr ⟨List.mem_range.mpr (by omega), hocc⟩
  have hbound : ∀ j ∈ (List.range (p.length + 1)).filter (startsAt q p), j ≤ i := by
    intro j hj
    have hj' := List.mem_filter.mp hj
    exact hmax j (by have := List.mem_range.mp hj'.1; omega) hj'.2
  have hpair : ((List.range (p.length + 1)).filter (startsAt q p)).Pairwise (· < ·) :=
    List.Pairwise.sublist (List.filter_sublist _) (List.pairwise_lt_range _)
  unfold rfindNat
  exact getLast?_eq_max _ i hpair hmem hbound

/-- Claim C8: the empty query scores 1 on every candidate; a (case-insensitive)
contiguous substring query scores `1000 - i` where `i` is the **last**
occurrence index; in particular `score("foo","foo") = 1000` and
`score("foo","xfoo") = 999`. -/
theorem C8_substring_score :
    (∀ p, fuzzy_score [] p = 1) ∧
      (∀ (q p : List Char) (i : Nat), q ≠ [] →
        startsAt (q.map Char.toLower) (p.map Char.toLower) i = true →
        (∀ j, j ≤ (p.map Char.toLower).length →
          startsAt (q.map Char.toLower) (p.map Char.toLower) j = true → j ≤ i) →
        fuzzy_score q p = 1000 - (i : Int)) ∧
      fuzzy_score "foo".toList "foo".toList = 1000 ∧
      fuzzy_score "foo".toList "xfoo".toList = 999 := by
  refine ⟨fun p => rfl, ?_, by decide, by decide⟩
  intro q p i hq hocc hmax
  have hq' : q.map Char.toLower ≠ [] := by
    intro h
    exact hq (List.map_eq_nil_iff.mp h)
  have hfind := rfindNat_eq_some (q.map Char.toLower) (p.map Char.toLower) i hq'
    hocc (by simpa using hmax)
  simp only [fuzzy_score, if_neg hq, hfind]

/-- Witness for C8's substring clause at `score("foo","xfoo") = 999`
(last occurrence index 1). -/
theorem C8_substring_score_witness :
    fuzzy_score "foo".toList "xfoo".toList = 1000 - (1 : Int) :=
  C8_substring_score.2.1 "foo".toList "xfoo".toList 1 (by decide) (by decide)
    (by decide)

/-! ## Claims C3 and C4: the `search` contract -/

/-- Characterisation of the scoring loop: a scored pair comes from a candidate
with strictly positive base score, boosted exactly when it is inside the cwd. -/
theorem mem_scoredCandidates {q : List Char} {paths : List Cand}
    {cp ac : List Char} {x : Int × Cand}
    (hx : x ∈ scoredCandidates q paths cp ac) :
    x.2 ∈ paths ∧ 0 < fuzzy_score q (searchText x.2) ∧
      x.1 = (if insideCwd cp ac x.2 then fuzzy_score q (searchText x.2) + 100000
        else fuzzy_score q (searchText x.2)) := by
  unfold scoredCandidates at hx
  rcases List.mem_filterMap.mp hx with ⟨a, ha, hfa⟩
  simp only at hfa
  split at hfa
  · rename_i hs
    injection hfa with h
    subst h
    exact ⟨ha, hs, rfl⟩
  · exact absurd hfa (by simp)

theorem scoreLE_trans : ∀ (a b c : Int × Cand),
    scoreLE a b → scoreLE b c → scoreLE a c := by
  intro a b c hab hbc
  simp only [scoreLE, decide_eq_true_eq] at *
  omega

theorem scoreLE_total : ∀ (a b : Int × Cand), scoreLE a b || scoreLE b a := by
  intro a b
  simp only [scoreLE, Bool.or_eq_true, decide_eq_true_eq]
  omega

/-- The output of `search` is sorted non-increasing by score. -/
theorem search_sorted (query : List Char) (paths : List Cand) (limit : Nat)
    (root cwd : List Char) :
    (search query paths limit root cwd).Pairwise (fun a b => b.1 ≤ a.1) := by
  have hs := List.sorted_mergeSort scoreLE_trans scoreLE_total
    (scoredCandidates query paths (cwdPrefOf root cwd) (absCwdOf cwd))
  have ht := List.Pairwise.sublist
    (List.take_sublist limit _) hs
  exact ht.imp (by
    intro a b h
    simpa [scoreLE, decide_eq_true_eq] using h)

/-- Every pair of `search` comes from the scoring loop. -/
theorem search_subset {query : List Char} {paths : List Cand} {limit : Nat}
    {root cwd : List Char} {x : Int × Cand}
    (hx : x ∈ search query paths limit root cwd) :
    x ∈ scoredCandidates query paths (cwdPrefOf root cwd) (absCwdOf cwd) := by
  unfold search at hx
  exact List.mem_mergeSort.mp (List.take_subset _ _ hx)

/-- The stable sort keeps equal scores in scan order: the score-`s` entries of
the output are an initial segment of the score-`s` entries of the scoring
loop's list. -/
theorem search_stable (query : List Char) (paths : List Cand) (limit : Nat)
    (root cwd : List Char) (s : Int) :
    ∃ t, (search query paths limit root cwd).filter (fun x => decide (x.1 = s))
        ++ t =
      (scoredCandidates query paths (cwdPrefOf root cwd)
          (absCwdOf cwd)).filter (fun x => decide (x.1 = s)) := by
  set P : Int × Cand → Bool := fun x => decide (x.1 = s) with hP
  set B := scoredCandidates query paths (cwdPrefOf root cwd) (absCwdOf cwd)
    with hB
  set M := B.mergeSort scoreLE with hM
  have hperm : M.Perm B := List.mergeSort_perm B scoreLE
  have hpair : (B.filter P).Pairwise fun a b => scoreLE a b := by
    apply List.pairwise_of_forall_mem_list
    intro a ha b hb
    have ha' := (List.mem_filter.mp ha).2
    have hb' := (List.mem_filter.mp hb).2
    simp only [hP, decide_eq_true_eq] at ha' hb'
    simp only [scoreLE, decide_eq_true_eq]
    omega
  have hsubl : List.Sublist (B.filter P) M :=
    List.sublist_mergeSort scoreLE_trans scoreLE_total hpair
      (List.filter_sublist B)
  have h2 : List.Sublist ((B.filter P).filter P) (M.filter P) := hsubl.filter P
  have h3 : (B.filter P).filter P = B.filter P := by
    rw [List.filter_filter]
    apply List.filter_congr
    intro a _
    exact Bool.and_self (P a)
  rw [h3] at h2
  have hlen : (M.filter P).length = (B.filter P).length :=
    (hperm.filter P).length_eq
  have hfilt : B.filter P = M.filter P := h2.eq_of_length hlen.symm
  refine ⟨(M.drop limit).filter P, ?_⟩
  have : (M.take limit).filter P ++ (M.drop limit).filter P = M.filter P := by
    rw [← List.filter_append, List.take_append_drop]
  calc (search query paths limit root cwd).filter P ++ (M.drop limit).filter P
      = M.filter P := this
    _ = B.filter P := hfilt.symm

/-- Claim C3: every pair returned by `search` has strictly positive score, the
returned sequence is sorted non-increasing by score, ties are kept in the
candidates' scan order (stability), and at most `limit` pairs are returned. -/
theorem C3_search_contract (query : List Char) (paths : List Cand)
    (limit : Nat) (root cwd : List Char) :
    (∀ x ∈ search query paths limit root cwd, 0 < x.1) ∧
      (search query paths limit root cwd).Pairwise (fun a b => b.1 ≤ a.1) ∧
      (∀ s : Int, ∃ t,
        (search query paths limit root cwd).filter (fun x => decide (x.1 = s))
            ++ t =
          (scoredCandidates query paths (cwdPrefOf root cwd)
              (absCwdOf cwd)).filter (fun x => decide (x.1 = s))) ∧
      (search query paths limit root cwd).length ≤ limit := by
  refine ⟨?_, search_sorted query paths limit root cwd,
    search_stable query paths limit root cwd, ?_⟩
  · intro x hx
    rcases mem_scoredCandidates (search_subset hx) with ⟨-, hpos, hval⟩
    rw [hval]
    split <;> omega
  · unfold search
    simp only [List.length_take]
    omega

/-- Witness for C3 on a concrete ranking (one boosted workspace entry, one
plain one, query `"b"`). -/
theorem C3_search_contract_witness :
    (∀ x ∈ search "b".toList
        [Cand.ws "xb".toList "/d/xb".toList, Cand.ws "b".toList "/c/b".toList]
        12 [] "/c".toList, 0 < x.1) ∧
      (search "b".toList
        [Cand.ws "xb".toList "/d/xb".toList, Cand.ws "b".toList "/c/b".toList]
        12 [] "/c".toList).length ≤ 12 :=
  ⟨(C3_search_contract "b".toList
      [Cand.ws "xb".toList "/d/xb".toList, Cand.ws "b".toList "/c/b".toList]
      12 [] "/c".toList).1,
    (C3_search_contract "b".toList
      [Cand.ws "xb".toList "/d/xb".toList, Cand.ws "b".toList "/c/b".toList]
      12 [] "/c".toList).2.2.2⟩

/-- Evaluation of the stable sort on a two-element list (the well-founded
definition of `List.mergeSort` does not reduce definitionally). -/
theorem mergeSort_pair (a b : Int × Cand) :
    List.mergeSort [a, b] scoreLE = if scoreLE a b then [a, b] else [b, a] := by
  rw [List.mergeSort]
  norm_num [List.splitInTwo, List.splitAt_eq, List.cons_merge_cons]

/-- Claim C4 (amended): inside `search`, a candidate inside the cwd scores
exactly its base fuzzy score plus the fixed boost 100000, a candidate outside
the cwd scores exactly its base score, and a boosted candidate is ranked
strictly before every non-boosted candidate whose base score is at most
100000 (in particular every substring match); a non-boosted candidate can
outrank a boosted one only with a subsequence base score above 100000. -/
theorem C4_cwd_boost (query : List Char) (paths : List Cand) (limit : Nat)
    (root cwd : List Char) :
    (∀ x ∈ search query paths limit root cwd,
      insideCwd (cwdPrefOf root cwd) (absCwdOf cwd) x.2 = true →
        x.1 = fuzzy_score query (searchText x.2) + 100000) ∧
      (∀ x ∈ search query paths limit root cwd,
        insideCwd (cwdPrefOf root cwd) (absCwdOf cwd) x.2 = false →
          x.1 = fuzzy_score query (searchText x.2)) ∧
      (∀ (i j : Nat) (hi : i < (search query paths limit root cwd).length)
          (hj : j < (search query paths limit root cwd).length),
        insideCwd (cwdPrefOf root cwd) (absCwdOf cwd)
            ((search query paths limit root cwd).get ⟨i, hi⟩).2 = true →
        insideCwd (cwdPrefOf root cwd) (absCwdOf cwd)
            ((search query paths limit root cwd).get ⟨j, hj⟩).2 = false →
        fuzzy_score query
            (searchText ((search query paths limit root cwd).get ⟨j, hj⟩).2)
          ≤ 100000 →
        i < j) := by
  have hboost : ∀ x ∈ search query paths limit root cwd,
      insideCwd (cwdPrefOf root cwd) (absCwdOf cwd) x.2 = true →
        x.1 = fuzzy_score query (searchText x.2) + 100000 := by
    intro x hx hin
    rcases mem_scoredCandidates (search_subset hx) with ⟨-, -, hval⟩
    rw [hval, if_pos hin]
  have hplain : ∀ x ∈ search query paths limit root cwd,
      insideCwd (cwdPrefOf root cwd) (absCwdOf cwd) x.2 = false →
        x.1 = fuzzy_score query (searchText x.2) := by
    intro x hx hin
    rcases mem_scoredCandidates (search_subset hx) with ⟨-, -, hval⟩
    rw [hval, if_neg (by simp [hin])]
  refine ⟨hboost, hplain, ?_⟩
  intro i j hi hj hini hinj hbase
  have hmi : (search query paths limit root cwd).get ⟨i, hi⟩ ∈
      search query paths limit root cwd := List.get_mem _ i hi
  have hmj : (search query paths limit root cwd).get ⟨j, hj⟩ ∈
      search query paths limit root cwd := List.get_mem _ j hj
  have hipos : 0 < fuzzy_score query
      (searchText ((search query paths limit root cwd).get ⟨i, hi⟩).2) :=
    (mem_scoredCandidates (search_subset hmi)).2.1
  have hvi := hboost _ hmi hini
  have hvj := hplain _ hmj hinj
  rcases Nat.lt_trichotomy i j with h | h | h
  · exact h
  · exfalso
    have hfin : (⟨i, hi⟩ : Fin (search query paths limit root cwd).length)
        = ⟨j, hj⟩ := Fin.ext h
    rw [hfin] at hini
    exact absurd (hini.symm.trans hinj) (by decide)
  · exfalso
    have hsorted := search_sorted query paths limit root cwd
    have hle := List.pairwise_iff_get.mp hsorted ⟨j, hj⟩ ⟨i, hi⟩ h
    omega

/-- Witness for C4: in the ranking of `"b"` over a boosted `b` and a plain
`xb`, the boosted pair `(101000, b)` (base 1000) sits at index 0, before the
plain `(999, xb)` at index 1. -/
theorem C4_cwd_boost_witness :
    (101000 : Int) =
        fuzzy_score "b".toList (searchText (Cand.ws "b".toList "/c/b".toList))
          + 100000 ∧
      (0 : Nat) < 1 := by
  have hs : search "b".toList
      [Cand.ws "b".toList "/c/b".toList, Cand.ws "xb".toList "/d/xb".toList]
      12 [] "/c".toList =
      [(101000, Cand.ws "b".toList "/c/b".toList),
        (999, Cand.ws "xb".toList "/d/xb".toList)] := by
    have hsc : scoredCandidates "b".toList
        [Cand.ws "b".toList "/c/b".toList, Cand.ws "xb".toList "/d/xb".toList]
        (cwdPrefOf [] "/c".toList) (absCwdOf "/c".toList) =
        [(101000, Cand.ws "b".toList "/c/b".toList),
          (999, Cand.ws "xb".toList "/d/xb".toList)] := by decide
    unfold search
    rw [hsc, mergeSort_pair]
    norm_num [scoreLE]
  have key := C4_cwd_boost "b".toList
    [Cand.ws "b".toList "/c/b".toList, Cand.ws "xb".toList "/d/xb".toList]
    12 [] "/c".toList
  rw [hs] at key
  exact ⟨key.1 (101000, Cand.ws "b".toList "/c/b".toList) (by decide)
      (by decide),
    key.2.2 0 1 (by decide) (by decide) (by decide) (by decide) (by decide)⟩

set_option maxRecDepth 40000 in
/-- Counterexample to C4 as stated ("a boosted candidate always outranks any
non-boosted candidate regardless of textual match quality"): the non-boosted
candidate `e4far` (base subsequence score 109352) is ranked before the boosted
candidate `e4near` (base 1000, boosted 101000). -/
theorem C4_counterexample :
    search q4 [e4near, e4far] 12 [] "/c".toList =
        [(109352, e4far), (101000, e4near)] ∧
      insideCwd (cwdPrefOf [] "/c".toList) (absCwdOf "/c".toList) e4near
          = true ∧
      insideCwd (cwdPrefOf [] "/c".toList) (absCwdOf "/c".toList) e4far
          = false := by
  refine ⟨?_, by decide, by decide⟩
  have hsc : scoredCandidates q4 [e4near, e4far] (cwdPrefOf [] "/c".toList)
      (absCwdOf "/c".toList) = [(101000, e4near), (109352, e4far)] := by
    decide
  unfold search
  rw [hsc, mergeSort_pair]
  norm_num [scoreLE]

/-! ## Claim C5 -/

/-- Claim C5: `load_cache(key)` returns exactly the candidate list previously
passed to `save_cache(key, P)` iff the file exists, parses, its stored key
equals `key`, and at most `CACHE_TTL = 300` seconds have elapsed since the
save; on file missing, parse failure, key mismatch, or TTL expiry it returns
`none`, so all failure modes are indistinguishable to the caller. -/
theorem C5_cache_roundtrip :
    (∀ (key : List Char) (ps : List Cand) (t now : Int) (old : CacheFile),
      load_cache (save_cache key ps t true old) key now =
        if now - t ≤ CACHE_TTL then some ps else none) ∧
      (∀ (key : List Char) (now : Int),
        load_cache CacheFile.missing key now = none) ∧
      (∀ (key : List Char) (now : Int),
        load_cache CacheFile.corrupt key now = none) ∧
      (∀ (r : List Char) (ps : List Cand) (ts : Int) (key : List Char)
          (now : Int),
        load_cache (CacheFile.valid r ps ts) key now =
          if r = key ∧ now - ts ≤ CACHE_TTL then some ps else none) ∧
      (∀ (f : CacheFile) (key : List Char) (now : Int) (ps : List Cand),
        load_cache f key now = some ps ↔
          ∃ ts, f = CacheFile.valid key ps ts ∧ now - ts ≤ CACHE_TTL) := by
  have hvalid : ∀ (r : List Char) (ps : List Cand) (ts : Int)
      (key : List Char) (now : Int),
      load_cache (CacheFile.valid r ps ts) key now =
        if r = key ∧ now - ts ≤ CACHE_TTL then some ps else none := by
    intro r ps ts key now
    simp only [load_cache, ite_not]
    by_cases hk : r = key
    · by_cases ht : now - ts ≤ CACHE_TTL
      · rw [if_pos hk, if_neg (by omega), if_pos ⟨hk, ht⟩]
      · rw [if_pos hk, if_pos (by omega), if_neg (by tauto)]
    · rw [if_neg hk, if_neg (by tauto)]
  refine ⟨?_, fun _ _ => rfl, fun _ _ => rfl, hvalid, ?_⟩
  · intro key ps t now old
    show load_cache (CacheFile.valid key ps t) key now = _
    rw [hvalid]
    by_cases ht : now - t ≤ CACHE_TTL
    · rw [if_pos ⟨rfl, ht⟩, if_pos ht]
    · rw [if_neg (by tauto), if_neg ht]
  · intro f key now ps
    cases f with
    | missing =>
      simp only [load_cache]
      constructor
      · intro h
        exact absurd h (by simp)
      · rintro ⟨ts, h, -⟩
        exact absurd h (by simp)
    | corrupt =>
      simp only [load_cache]
      constructor
      · intro h
        exact absurd h (by simp)
      · rintro ⟨ts, h, -⟩
        exact absurd h (by simp)
    | valid r ps' ts =>
      rw [hvalid]
      constructor
      · intro h
        by_cases hc : r = key ∧ now - ts ≤ CACHE_TTL
        · rw [if_pos hc] at h
          injection h with h
          exact ⟨ts, by rw [hc.1, h], hc.2⟩
        · rw [if_neg hc] at h
          exact absurd h (by simp)
      · rintro ⟨ts', heq, ht⟩
        injection heq with h1 h2 h3
        subst h1
        subst h2
        subst h3
        rw [if_pos ⟨rfl, ht⟩]

/-- Counterexample to C1 as stated: for the non-substring query `"ab"` against
`"axb"`, the walk described by the claim (which awards `+10` to a character
starting a fresh matched run) yields 20, while `fuzzy_score` yields 2:
the code awards `+10` only after a separator character. -/
theorem C1_counterexample :
    "ab".toList ≠ [] ∧
      (∀ i, i ≤ ("axb".toList.map Char.toLower).length →
        startsAt ("ab".toList.map Char.toLower)
          ("axb".toList.map Char.toLower) i = false) ∧
      fuzzy_score "ab".toList "axb".toList = 2 ∧
      claimSubseqScore ("ab".toList.map Char.toLower)
        ("axb".toList.map Char.toLower) = 20 ∧
      (2 : Int) ≠ 20 := by
  refine ⟨by decide, by decide, by decide, by decide, by decide⟩

/-! ## Claim C2 -/

/-- Claim C2 is a code bug: in workspace mode the source computes
`scan_depth = 3` but never passes it to `walk`, which closes over
`max_depth = 6`; a directory at depth 4 below a workspace root is therefore
emitted (tagged with the root's basename as display prefix), although the
spec caps workspace scans at depth 3. -/
theorem C2_workspace_depth_bug :
    Cand.ws "r1/a/b/c/d".toList "/w/r1/a/b/c/d".toList ∈
        scanPathsDefault [] none true [⟨"/w/r1".toList, some c2tree⟩] []
          none ∧
      Cand.single ['.'] ∉
        scanPathsDefault [] none true [⟨"/w/r1".toList, some c2tree⟩] []
          none := by
  exact ⟨by decide, by decide⟩

/-! ## Claim C6 -/

/-- Once the cap is reached, `walk` returns immediately. -/
theorem walkD_stop (mD mN : Nat) (spec : Option (List Char → Bool))
    (isWs : Bool) (rp : List Char) (d : Dir) (depth : Nat)
    (pfx : List (List Char)) (acc : List Cand) (h : mN ≤ acc.length) :
    walkD mD mN spec isWs rp d depth pfx acc = acc := by
  match d with
  | .mk nm rd cs =>
    simp only [walkD]
    rw [if_pos (Or.inr h)]

/-- Past the cap, the loop still appends at most one entry per remaining
sibling but never recurses. -/
theorem walkL_stop (mD mN : Nat) (spec : Option (List Char → Bool))
    (isWs : Bool) (rp : List Char) :
    ∀ (cs : DirList) (depth : Nat) (pfx : List (List Char)) (acc : List Cand),
    mN ≤ acc.length →
    (walkL mD mN spec isWs rp cs depth pfx acc).length ≤
      acc.length + cs.length
  | .nil, depth, pfx, acc, h => by
    simp [walkL, DirList.length]
  | .cons c rest, depth, pfx, acc, h => by
    simp only [walkL, DirList.length]
    by_cases h1 : skipName c.name = true
    · rw [if_pos h1]
      have := walkL_stop mD mN spec isWs rp rest depth pfx acc h
      omega
    · rw [if_neg h1]
      by_cases h2 : specMatch spec
          (List.intercalate ['/'] (pfx ++ [c.name]) ++ ['/']) = true
      · rw [if_pos h2]
        have := walkL_stop mD mN spec isWs rp rest depth pfx acc h
        omega
      · rw [if_neg h2]
        rw [walkD_stop mD mN spec isWs rp c (depth + 1) (pfx ++ [c.name])
          (acc ++ [emitCand isWs rp (pfx ++ [c.name])])
          (by simp; omega)]
        have := walkL_stop mD mN spec isWs rp rest depth pfx
          (acc ++ [emitCand isWs rp (pfx ++ [c.name])]) (by simp; omega)
        simp only [List.length_append, List.length_cons,
          List.length_nil] at this ⊢
        omega

mutual

/-- Cap-overshoot bound for `walk` on one directory: the result is never
longer than `max |acc| (cap - 1 + chainFanout d)`. -/
theorem walkD_bound (mD mN : Nat) (spec : Option (List Char → Bool))
    (isWs : Bool) (rp : List Char) (d : Dir) (depth : Nat)
    (pfx : List (List Char)) (acc : List Cand) :
    (walkD mD mN spec isWs rp d depth pfx acc).length ≤
      max acc.length (mN - 1 + chainFanout d) := by
  match d with
  | .mk nm rd cs =>
    simp only [walkD, chainFanout]
    split
    · omega
    · split
      · omega
      · rename_i hg _
        have hb := walkL_bound mD mN spec isWs rp cs depth pfx acc
        have hlt : acc.length < mN := by omega
        omega

/-- Cap-overshoot bound for the sibling loop. -/
theorem walkL_bound (mD mN : Nat) (spec : Option (List Char → Bool))
    (isWs : Bool) (rp : List Char) (cs : DirList) (depth : Nat)
    (pfx : List (List Char)) (acc : List Cand) :
    (walkL mD mN spec isWs rp cs depth pfx acc).length ≤
      max acc.length (mN - 1) + cs.length + chainFanoutL cs := by
  match cs with
  | .nil =>
    simp only [walkL, DirList.length, chainFanoutL]
    omega
  | .cons c rest =>
    simp only [walkL, DirList.length, chainFanoutL]
    by_cases h1 : skipName c.name = true
    · rw [if_pos h1]
      have := walkL_bound mD mN spec isWs rp rest depth pfx acc
      omega
    · rw [if_neg h1]
      by_cases h2 : specMatch spec
          (List.intercalate ['/'] (pfx ++ [c.name]) ++ ['/']) = true
      · rw [if_pos h2]
        have := walkL_bound mD mN spec isWs rp rest depth pfx acc
        omega
      · rw [if_neg h2]
        have hD := walkD_bound mD mN spec isWs rp c (depth + 1)
          (pfx ++ [c.name]) (acc ++ [emitCand isWs rp (pfx ++ [c.name])])
        rw [List.length_append, List.length_cons, List.length_nil] at hD
        by_cases h3 : mN ≤ (walkD mD mN spec isWs rp c (depth + 1)
            (pfx ++ [c.name])
            (acc ++ [emitCand isWs rp (pfx ++ [c.name])])).length
        · have hL := walkL_stop mD mN spec isWs rp rest depth pfx _ h3
          omega
        · have hL := walkL_bound mD mN spec isWs rp rest depth pfx
            (walkD mD mN spec isWs rp c (depth + 1) (pfx ++ [c.name])
              (acc ++ [emitCand isWs rp (pfx ++ [c.name])]))
          omega

end

/-- Cap-overshoot bound for the fold over the configured roots. -/
theorem scanFold_bound (mD mN : Nat) (spec : Option (List Char → Bool))
    (isWs : Bool) :
    ∀ (roots : List RootFS) (acc : List Cand),
    ((roots.foldl (fun acc r =>
        match r.tree with
        | none => acc
        | some t => walkD mD mN spec isWs r.path t 1 [] acc) acc).length) ≤
      max acc.length (mN - 1 + rootsFanout roots)
  | [], acc => by
    simp [rootsFanout]
  | r :: rest, acc => by
    simp only [List.foldl, rootsFanout]
    cases htr : r.tree with
    | none =>
      simp only [htr]
      have := scanFold_bound mD mN spec isWs rest acc
      omega
    | some t =>
      simp only [htr]
      have h1 := walkD_bound mD mN spec isWs r.path t 1 [] acc
      have h2 := scanFold_bound mD mN spec isWs rest
        (walkD mD mN spec isWs r.path t 1 [] acc)
      omega

/-- Counterexample to C6 as stated ("scan_paths never returns more candidates
than the max_entries cap"): with `max_dirs = 2` over a root with three
children the scanner returns 4 candidates. -/
theorem C6_counterexample :
    2 < (scan_paths "/r".toList (some c6tree) 6 2 false [] "/h".toList
        none).length ∧
      (scan_paths "/r".toList (some c6tree) 6 2 false [] "/h".toList
        none).length = 4 := by
  exact ⟨by decide, by decide⟩

/-- Claim C6 (amended): the cap stops the traversal from descending further
(`walk` returns immediately once `len(paths) >= max_dirs`), but entries of
already-open directories keep being appended, so the result can overshoot the
cap, bounded by `max_dirs - 1` plus the largest root-to-leaf fan-out sum
(plus the root's own `.` entry); and `max_dirs` defaults to 15000 in both
single-root and workspace mode (not ~5000 single-root). -/
theorem C6_cap_and_default :
    (∀ (rootPath : List Char) (rootTree : Option Dir)
        (maxDepth maxDirs : Nat) (isWs : Bool) (wsRoots : List RootFS)
        (home : List Char) (spec : Option (List Char → Bool)),
      (scan_paths rootPath rootTree maxDepth maxDirs isWs wsRoots home
          spec).length ≤
        max 1 (maxDirs - 1 +
          rootsFanout (if isWs && !wsRoots.isEmpty then wsRoots
            else [⟨rootPath, rootTree⟩]))) ∧
      (∀ (rootPath : List Char) (rootTree : Option Dir) (isWs : Bool)
          (wsRoots : List RootFS) (home : List Char)
          (spec : Option (List Char → Bool)),
        scanPathsDefault rootPath rootTree isWs wsRoots home spec =
          scan_paths rootPath rootTree 6 15000 isWs wsRoots home spec) := by
  constructor
  · intro rootPath rootTree maxDepth maxDirs isWs wsRoots home spec
    unfold scan_paths
    dsimp only
    have hb := scanFold_bound
      (if ¬ isWs ∧ maxDepth = 6 ∧ (rootPath = home ∨ rootPath = ['/'])
        then 2 else maxDepth) maxDirs
      (if isWs then none else spec) isWs
      (if isWs && !wsRoots.isEmpty then wsRoots else [⟨rootPath, rootTree⟩])
      (if isWs then [] else [Cand.single ['.']])
    have hinit : (if isWs then ([] : List Cand)
        else [Cand.single ['.']]).length ≤ 1 := by
      cases isWs <;> simp
    omega
  · intro rootPath rootTree isWs wsRoots home spec
    rfl

/-! ## Claim C7 -/

mutual

/-- Every candidate added by `walk` below a clean component path is a clean
emission: nonempty components, none deny-listed or hidden. -/
theorem walkD_clean (mD mN : Nat) (spec : Option (List Char → Bool))
    (isWs : Bool) (rp : List Char) (d : Dir) (depth : Nat)
    (pfx : List (List Char)) (acc : List Cand)
    (hpfx : ∀ n ∈ pfx, skipName n = false) :
    ∀ c ∈ walkD mD mN spec isWs rp d depth pfx acc,
      c ∈ acc ∨ cleanEmit isWs c := by
  match d with
  | .mk nm rd cs =>
    simp only [walkD]
    split
    · exact fun c hc => Or.inl hc
    · split
      · exact fun c hc => Or.inl hc
      · exact walkL_clean mD mN spec isWs rp cs depth pfx acc hpfx

/-- The sibling-loop case of `walkD_clean`. -/
theorem walkL_clean (mD mN : Nat) (spec : Option (List Char → Bool))
    (isWs : Bool) (rp : List Char) (cs : DirList) (depth : Nat)
    (pfx : List (List Char)) (acc : List Cand)
    (hpfx : ∀ n ∈ pfx, skipName n = false) :
    ∀ c ∈ walkL mD mN spec isWs rp cs depth pfx acc,
      c ∈ acc ∨ cleanEmit isWs c := by
  match cs with
  | .nil =>
    exact fun c hc => Or.inl hc
  | .cons c rest =>
    simp only [walkL]
    intro x hx
    by_cases h1 : skipName c.name = true
    · rw [if_pos h1] at hx
      exact walkL_clean mD mN spec isWs rp rest depth pfx acc hpfx x hx
    · rw [if_neg h1] at hx
      by_cases h2 : specMatch spec
          (List.intercalate ['/'] (pfx ++ [c.name]) ++ ['/']) = true
      · rw [if_pos h2] at hx
        exact walkL_clean mD mN spec isWs rp rest depth pfx acc hpfx x hx
      · rw [if_neg h2] at hx
        have hpfx' : ∀ n ∈ pfx ++ [c.name], skipName n = false := by
          intro n hn
          rcases List.mem_append.mp hn with h | h
          · exact hpfx n h
          · have : n = c.name := by simpa using h
            rw [this]
            exact Bool.not_eq_true _ ▸ (by simpa using h1)
        have hstep := walkL_clean mD mN spec isWs rp rest depth pfx
          (walkD mD mN spec isWs rp c (depth + 1) (pfx ++ [c.name])
            (acc ++ [emitCand isWs rp (pfx ++ [c.name])])) hpfx x hx
        rcases hstep with hmem | hclean
        · have hD := walkD_clean mD mN spec isWs rp c (depth + 1)
            (pfx ++ [c.name])
            (acc ++ [emitCand isWs rp (pfx ++ [c.name])]) hpfx' x hmem
          rcases hD with hmem2 | hclean
          · rcases List.mem_append.mp hmem2 with h | h
            · exact Or.inl h
            · right
              refine ⟨pfx ++ [c.name], rp, by simp, hpfx', ?_⟩
              simpa using h
          · exact Or.inr hclean
        · exact Or.inr hclean

end

/-- `walkD_clean` lifted over the fold on configured roots. -/
theorem scanFold_clean (mD mN : Nat) (spec : Option (List Char → Bool))
    (isWs : Bool) :
    ∀ (roots : List RootFS) (acc : List Cand),
    (∀ c ∈ acc, c = Cand.single ['.'] ∨ cleanEmit isWs c) →
    ∀ c ∈ roots.foldl (fun acc r =>
        match r.tree with
        | none => acc
        | some t => walkD mD mN spec isWs r.path t 1 [] acc) acc,
      c = Cand.single ['.'] ∨ cleanEmit isWs c
  | [], acc, hacc => hacc
  | r :: rest, acc, hacc => by
    simp only [List.foldl]
    cases htr : r.tree with
    | none =>
      simp only [htr]
      exact scanFold_clean mD mN spec isWs rest acc hacc
    | some t =>
      simp only [htr]
      apply scanFold_clean mD mN spec isWs rest
      intro c hc
      rcases walkD_clean mD mN spec isWs r.path t 1 [] acc
          (by intro n hn; exact absurd hn (List.not_mem_nil n)) c hc with
        h | h
      · exact hacc c h
      · exact Or.inr h

/-- Claim C7: every candidate returned by `scan_paths`, other than the
root's own `.` entry, is reached through name components below its root of
which none is in the `SKIP_DIRS` deny-list and none starts with `.`; skipped
directories are pruned before recursion, so no descendant of theirs appears
either (every component of every emitted path is clean). -/
theorem C7_skip_pruning (rootPath : List Char) (rootTree : Option Dir)
    (maxDepth maxDirs : Nat) (isWs : Bool) (wsRoots : List RootFS)
    (home : List Char) (spec : Option (List Char → Bool)) :
    ∀ c ∈ scan_paths rootPath rootTree maxDepth maxDirs isWs wsRoots home
        spec,
      c ≠ Cand.single ['.'] → cleanEmit isWs c := by
  intro c hc hne
  unfold scan_paths at hc
  have := scanFold_clean
    (if ¬ isWs ∧ maxDepth = 6 ∧ (rootPath = home ∨ rootPath = ['/'])
      then 2 else maxDepth) maxDirs
    (if isWs then none else spec) isWs
    (if isWs && !wsRoots.isEmpty then wsRoots else [⟨rootPath, rootTree⟩])
    (if isWs then [] else [Cand.single ['.']])
    (by
      cases isWs
      · intro x hx
        left
        simpa using hx
      · intro x hx
        exact absurd hx (List.not_mem_nil x))
    c hc
  rcases this with h | h
  · exact absurd h hne
  · exact h

/-- Witness for C7: in the scan of a root with children `ok`, `.git`,
`node_modules`, the emitted candidate `ok` is a clean emission. -/
theorem C7_skip_pruning_witness : cleanEmit false (Cand.single "ok".toList) :=
  C7_skip_pruning "/r".toList (some c7tree) 6 15000 false [] "/h".toList none
    (Cand.single "ok".toList) (by decide) (by decide)

/-! ## Claim C10 -/

mutual

/-- With no ignore-spec, `walk` is exactly the deny-list/hidden-rule walk. -/
theorem walkD_nospec (mD mN : Nat) (isWs : Bool) (rp : List Char) (d : Dir)
    (depth : Nat) (pfx : List (List Char)) (acc : List Cand) :
    walkD mD mN none isWs rp d depth pfx acc =
      walkNoSpecD mD mN isWs rp d depth pfx acc := by
  match d with
  | .mk nm rd cs =>
    simp only [walkD, walkNoSpecD]
    by_cases hg : mD < depth ∨ mN ≤ acc.length
    · rw [if_pos hg, if_pos hg]
    · rw [if_neg hg, if_neg hg]
      by_cases hr : rd = false
      · rw [if_pos hr, if_pos hr]
      · rw [if_neg hr, if_neg hr]
        exact walkL_nospec mD mN isWs rp cs depth pfx acc

/-- The sibling-loop case of `walkD_nospec`. -/
theorem walkL_nospec (mD mN : Nat) (isWs : Bool) (rp : List Char)
    (cs : DirList) (depth : Nat) (pfx : List (List Char)) (acc : List Cand) :
    walkL mD mN none isWs rp cs depth pfx acc =
      walkNoSpecL mD mN isWs rp cs depth pfx acc := by
  match cs with
  | .nil => rfl
  | .cons c rest =>
    simp only [walkL, walkNoSpecL]
    by_cases h1 : skipName c.name = true
    · rw [if_pos h1, if_pos h1]
      exact walkL_nospec mD mN isWs rp rest depth pfx acc
    · rw [if_neg h1, if_neg h1,
        if_neg (by simp [specMatch]),
        walkD_nospec mD mN isWs rp c (depth + 1) (pfx ++ [c.name])]
      exact walkL_nospec mD mN isWs rp rest depth pfx _

end

/-- The root fold with no ignore-spec equals the deny-list-only fold. -/
theorem scanFold_nospec (mD mN : Nat) (isWs : Bool) :
    ∀ (roots : List RootFS) (acc : List Cand),
    roots.foldl (fun acc r =>
        match r.tree with
        | none => acc
        | some t => walkD mD mN none isWs r.path t 1 [] acc) acc =
      roots.foldl (fun acc r =>
        match r.tree with
        | none => acc
        | some t => walkNoSpecD mD mN isWs r.path t 1 [] acc) acc
  | [], acc => rfl
  | r :: rest, acc => by
    simp only [List.foldl]
    cases htr : r.tree with
    | none =>
      simp only [htr]
      exact scanFold_nospec mD mN isWs rest acc
    | some t =>
      simp only [htr, walkD_nospec]

/-- Claim C10: in workspace mode `scan_paths` neither loads nor consults the
ignore-spec — the result is independent of whatever `load_ignore_spec` would
return and equals the walk filtered only by the deny-list and the hidden-name
rule — while in single-root mode the ignore-spec is applied (a spec matching
`aa/` changes the scan of a root with children `aa`, `bb`). -/
theorem C10_workspace_no_ignore_spec :
    (∀ (rootPath : List Char) (rootTree : Option Dir)
        (maxDepth maxDirs : Nat) (wsRoots : List RootFS) (home : List Char)
        (s1 s2 : Option (List Char → Bool)),
      scan_paths rootPath rootTree maxDepth maxDirs true wsRoots home s1 =
        scan_paths rootPath rootTree maxDepth maxDirs true wsRoots home s2) ∧
      (∀ (rootPath : List Char) (rootTree : Option Dir)
          (maxDepth maxDirs : Nat) (wsRoots : List RootFS)
          (home : List Char) (s : Option (List Char → Bool)),
        scan_paths rootPath rootTree maxDepth maxDirs true wsRoots home s =
          scanPathsNoSpec rootPath rootTree maxDepth maxDirs true wsRoots
            home) ∧
      scan_paths "/r".toList (some c10tree) 6 15000 false [] "/h".toList
          (some fun s => decide (s = "aa/".toList)) ≠
        scan_paths "/r".toList (some c10tree) 6 15000 false [] "/h".toList
          none := by
  refine ⟨fun _ _ _ _ _ _ _ _ => rfl, ?_, by decide⟩
  intro rootPath rootTree maxDepth maxDirs wsRoots home s
  exact scanFold_nospec maxDepth maxDirs true _ _

/-! ## Claim C9 -/

/-- `refresh_results` establishes the session invariant unconditionally. -/
theorem refreshResults_inv (root cwd : List Char) (s : PickerState) :
    PickerInv root cwd (refreshResults root cwd s) := by
  refine ⟨rfl, ?_⟩
  show min s.cursor (max 0 ((visibleOf root cwd s.text s.pathsS).length - 1)) ≤
    (visibleOf root cwd s.text s.pathsS).length - 1
  omega

/-- Claim C9: the picker session invariant (visible results consistent with
the current query and candidate snapshot, cursor clamped into them) holds
initially and is preserved by every event; on a non-empty visible list every
navigation event moves the cursor by exactly one, clamped to
`[0, len(results)-1]`, without changing the visible list; a text change
resets the cursor to 0; and accept returns exactly the entry at the cursor,
which is always a valid index. -/
theorem C9_picker_cursor (root cwd : List Char) :
    (∀ cached, PickerInv root cwd (initState cached)) ∧
      (∀ (e : PickerEvent) (s : PickerState), PickerInv root cwd s →
        PickerInv root cwd (stepEvent root cwd e s)) ∧
      (∀ s : PickerState, PickerInv root cwd s → s.results ≠ [] →
        (stepEvent root cwd PickerEvent.down s).cursor =
            min (s.cursor + 1) (s.results.length - 1) ∧
          (stepEvent root cwd PickerEvent.tab s).cursor =
            min (s.cursor + 1) (s.results.length - 1) ∧
          (stepEvent root cwd PickerEvent.up s).cursor = s.cursor - 1 ∧
          (stepEvent root cwd PickerEvent.stab s).cursor = s.cursor - 1 ∧
          (stepEvent root cwd PickerEvent.down s).results = s.results ∧
          (stepEvent root cwd PickerEvent.up s).results = s.results) ∧
      (∀ (t : List Char) (s : PickerState),
        (stepEvent root cwd (PickerEvent.textChanged t) s).cursor = 0) ∧
      (∀ s : PickerState, PickerInv root cwd s → s.results ≠ [] →
        ∃ h : s.cursor < s.results.length,
          acceptEvent s = some (s.results.get ⟨s.cursor, h⟩)) := by
  have hres : ∀ (s : PickerState), PickerInv root cwd s →
      ∀ c : Nat, (refreshResults root cwd { s with cursor := c }).results =
        s.results ∧
        (refreshResults root cwd { s with cursor := c }).cursor =
          min c (max 0 (s.results.length - 1)) := by
    intro s hs c
    constructor
    · show visibleOf root cwd s.text s.pathsS = s.results
      exact hs.1.symm
    · show min c (max 0 ((visibleOf root cwd s.text s.pathsS).length - 1)) =
        min c (max 0 (s.results.length - 1))
      rw [hs.1]
  refine ⟨?_, ?_, ?_, ?_, ?_⟩
  · intro cached
    exact ⟨rfl, Nat.zero_le _⟩
  · intro e s hs
    cases e <;> exact refreshResults_inv root cwd _
  · intro s hs hne
    have hlen : 1 ≤ s.results.length := by
      cases hr : s.results with
      | nil => exact absurd hr hne
      | cons a t => simp [hr]
    have hcur := hs.2
    refine ⟨?_, ?_, ?_, ?_, ?_, ?_⟩
    · simp only [stepEvent]
      rw [(hres s hs _).2]
      split <;> omega
    · simp only [stepEvent]
      rw [(hres s hs _).2]
      split <;> omega
    · simp only [stepEvent]
      rw [(hres s hs _).2]
      split <;> omega
    · simp only [stepEvent]
      rw [(hres s hs _).2]
      split <;> omega
    · simp only [stepEvent]
      exact (hres s hs _).1
    · simp only [stepEvent]
      exact (hres s hs _).1
  · intro t s
    show min 0 (max 0 ((visibleOf root cwd t s.pathsS).length - 1)) = 0
    omega
  · intro s hs hne
    have hlen : 1 ≤ s.results.length := by
      cases hr : s.results with
      | nil => exact absurd hr hne
      | cons a t => simp [hr]
    have hlt : s.cursor < s.results.length := by
      have := hs.2
      omega
    refine ⟨hlt, ?_⟩
    unfold acceptEvent
    rw [if_neg (by simp [List.isEmpty_iff, hne])]
    exact List.get?_eq_get hlt

/-- Witness for C9: pressing `down` from the initial two-candidate session
moves the cursor from 0 to `min 1 1 = 1` and preserves the invariant. -/
theorem C9_picker_cursor_witness :
    (stepEvent [] [] PickerEvent.down
        (initState (some [Cand.single "a".toList,
          Cand.single "b".toList]))).cursor =
      min ((initState (some [Cand.single "a".toList,
          Cand.single "b".toList])).cursor + 1)
        ((initState (some [Cand.single "a".toList,
          Cand.single "b".toList])).results.length - 1) ∧
      PickerInv [] [] (stepEvent [] [] PickerEvent.down
        (initState (some [Cand.single "a".toList, Cand.single "b".toList]))) :=
  ⟨((C9_picker_cursor [] []).2.2.1
      (initState (some [Cand.single "a".toList, Cand.single "b".toList]))
      (by decide) (by decide)).1,
    (C9_picker_cursor [] []).2.1 PickerEvent.down
      (initState (some [Cand.single "a".toList, Cand.single "b".toList]))
      (by decide)⟩

end Dongle
